import Mathlib

/-!
Shallow embedding of the graph-neural-network program in `src/main.cpp`
(libtorch).  Tensors of floating-point values are modelled as rational
matrices: a matrix records its column count explicitly (as a torch tensor
does even when it has zero rows) together with its list of rows.  Torch
runtime failures are modelled with an explicit error type: shape mismatches
raise `shapeError`, out-of-range gather/scatter indices raise `indexError`,
and the `std::invalid_argument` checks in the constructors raise
`configError`.
-/

namespace GNN

/-- Error kinds surfaced by the embedded program: `configError` models the
`std::invalid_argument` thrown by the constructors, `shapeError` a torch
shape mismatch during tensor combination, `indexError` an out-of-range
index during gather/scatter. -/
inductive Err where
  | configError : String → Err
  | shapeError : Err
  | indexError : Err
deriving DecidableEq, Repr

/-- A 2-D tensor: the column count is part of the value (as in torch, where
a `[0, w]` tensor still knows `w`), together with the list of rows. -/
structure Mat where
  cols : ℕ
  rows : List (List ℚ)
deriving DecidableEq, Repr

/-- Well-formedness: every row really has `cols` entries (torch tensors are
rectangular by construction). -/
def Mat.WF (m : Mat) : Prop := ∀ r ∈ m.rows, r.length = m.cols

instance (m : Mat) : Decidable m.WF := by
  unfold Mat.WF; infer_instance

/-- The `edge_index` tensor is a `[2, E]` integer tensor; row 0 holds the source node
of each edge and row 1 the target node. -/
structure EdgeIndex where
  src : List ℕ
  tgt : List ℕ
deriving DecidableEq, Repr

/-- Model of `edge_index.flip(0)`: flipping a `[2, E]` tensor along dimension 0
swaps the source row and the target row. -/
def EdgeIndex.flip0 (e : EdgeIndex) : EdgeIndex := ⟨e.tgt, e.src⟩

/-- Row gather underlying `index_select(0, idx)`: out-of-range indices are
a torch index error. -/
def gatherRows (rows : List (List ℚ)) : List ℕ → Except Err (List (List ℚ))
  | [] => .ok []
  | i :: is =>
    match rows.get? i with
    | none => .error .indexError
    | some r => do
        let rest ← gatherRows rows is
        .ok (r :: rest)

/-- Model of `m.index_select(0, idx)`. -/
def indexSelect (m : Mat) (idx : List ℕ) : Except Err Mat := do
  let rs ← gatherRows m.rows idx
  .ok ⟨m.cols, rs⟩

/-- Model of `torch::cat({a, b}, -1)`: feature-axis concatenation; the row counts
must agree. -/
def hcat (a b : Mat) : Except Err Mat :=
  if a.rows.length = b.rows.length then
    .ok ⟨a.cols + b.cols, List.zipWith (fun r s => r ++ s) a.rows b.rows⟩
  else .error .shapeError

/-- Model of `torch::cat(ms, -1)` over a list of matrices, realised as a fold of
binary concatenations (equivalent shapes and failure behaviour). -/
def hcatAll : List Mat → Except Err Mat
  | [] => .ok ⟨0, []⟩
  | [m] => .ok m
  | m :: ms => do
      let rest ← hcatAll ms
      hcat m rest

/-- Broadcast multiplication `edge_weight * messages` of a `[E, 1]` weight
column against a `[E, w]` matrix: row `e` is scaled by `edge_weight[e]`. -/
def scaleRows (w : List ℚ) (m : Mat) : Except Err Mat :=
  if w.length = m.rows.length then
    .ok ⟨m.cols, List.zipWith (fun c r => r.map (fun x => c * x)) w m.rows⟩
  else .error .shapeError

/-- Model of `torch::zeros({n, w})`. -/
def zerosMat (n w : ℕ) : Mat := ⟨w, List.replicate n (List.replicate w 0)⟩

/-- Entrywise addition of two rows (tensor `+` on equal-width rows). -/
def rowAdd (a b : List ℚ) : List ℚ := List.zipWith (fun x y => x + y) a b

/-- The scatter loop of `index_add_(0, idx, msgs)`: each message row is
added (entrywise) into the base row selected by its index; an out-of-range
index is a torch index error, an index/message count mismatch a shape
error. -/
def addRowsAt : List (List ℚ) → List ℕ → List (List ℚ) → Except Err (List (List ℚ))
  | base, [], [] => .ok base
  | base, i :: is, v :: vs =>
    if i < base.length then
      addRowsAt (base.set i (rowAdd (base.getD i []) v)) is vs
    else .error .indexError
  | _, _, _ => .error .shapeError

/-- Model of `base.index_add_(0, idx, src)`: the source column count must match the
base column count. -/
def indexAdd (base : Mat) (idx : List ℕ) (src : Mat) : Except Err Mat :=
  if src.cols = base.cols then do
    let rs ← addRowsAt base.rows idx src.rows
    .ok ⟨base.cols, rs⟩
  else .error .shapeError

/-- Model of `GATConvImpl::message`: gathers the source-node features of every edge;
at hop 1 the message is `edge_weight * cat(node_attr_j, edge_attr)`,
otherwise `edge_weight * node_attr_j`. -/
def message (edge_index : EdgeIndex) (node_attr edge_attr : Mat)
    (edge_weight : List ℚ) (hop : ℤ) : Except Err Mat := do
  let node_attr_j ← indexSelect node_attr edge_index.src
  if hop = 1 then do
    let catted ← hcat node_attr_j edge_attr
    scaleRows edge_weight catted
  else
    scaleRows edge_weight node_attr_j

/-- Model of `GATConvImpl::aggregate`: scatter-sum of the messages into a zero
matrix of shape `[num_nodes, messages.size(1)]`, indexed by the target row
of `edge_index`. -/
def aggregate (edge_index : EdgeIndex) (messages : Mat) (num_nodes : ℕ) :
    Except Err Mat :=
  indexAdd (zerosMat num_nodes messages.cols) edge_index.tgt messages

/-- Model of `GATConvImpl::propagate`: message then aggregate, with
`num_nodes = node_attr.size(0)`. -/
def propagate (edge_index : EdgeIndex) (node_attr edge_attr : Mat)
    (edge_weight : List ℚ) (hop : ℤ) : Except Err Mat := do
  let messages ← message edge_index node_attr edge_attr edge_weight hop
  aggregate edge_index messages node_attr.rows.length

/-- Runtime state of a `GATConv` layer: its internal dense block (the MLP
with its trained parameters) as a matrix transform.  The spec treats the
dense block as an external collaborator specified only by contract. -/
structure GATConv where
  mlp : Mat → Except Err Mat

/-- Model of `GATConvImpl::forward`: reverse the edge list, run the four propagate
rounds, concatenate the six feature blocks in order, feed the dense
block. -/
def GATConv.forward (c : GATConv) (edge_index : EdgeIndex)
    (node_attr edge_attr : Mat) (edge_weight : List ℚ)
    (initial_node_attr : Mat) : Except Err Mat := do
  let reversed_edge_index := edge_index.flip0
  let one_hop_incoming ← propagate edge_index node_attr edge_attr edge_weight 1
  let one_hop_outgoing ← propagate reversed_edge_index node_attr edge_attr edge_weight 1
  let two_hop_incoming ← propagate edge_index one_hop_incoming edge_attr edge_weight 2
  let two_hop_outgoing ← propagate reversed_edge_index one_hop_outgoing edge_attr edge_weight 2
  let combined ← hcatAll [initial_node_attr, node_attr,
    one_hop_incoming, one_hop_outgoing,
    two_hop_incoming, two_hop_outgoing]
  c.mlp combined

/-! ### Constructors

The constructors of `MLPImpl`, `GATConvImpl` and `NNImpl` validate their
size parameters (throwing `std::invalid_argument`, the spec's
`ConfigError`) and then assemble the layer stack.  The layer stack is
modelled symbolically: the claims about construction concern which layers
are present and with which widths, not the trained weights. -/

/-- One entry of the `torch::nn::Sequential` assembled by `MLPImpl`. -/
inductive Layer where
  | linear (inFeatures outFeatures : ℤ)
  | layerNorm (normalizedShape : ℤ)
  | activation
  | dropout (p : ℚ)
  | endActivation
deriving DecidableEq, Repr

/-- The `Linear → [LayerNorm] → Activation → [Dropout]` group pushed for a
hidden layer of `MLPImpl`. -/
def hiddenGroup (inSize outSize : ℤ) (dropout_prob : ℚ)
    (use_layer_norm : Bool) : List Layer :=
  [Layer.linear inSize outSize]
    ++ (if use_layer_norm then [Layer.layerNorm outSize] else [])
    ++ [Layer.activation]
    ++ (if dropout_prob > 0 then [Layer.dropout dropout_prob] else [])

/-- The chain of hidden groups: the first group maps from `input_size` to
`hidden_sizes[0]`, each later group from `hidden_sizes[i-1]` to
`hidden_sizes[i]`, exactly as the constructor's loop does. -/
def hiddenChain (prev : ℤ) (dropout_prob : ℚ) (use_layer_norm : Bool) :
    List ℤ → List Layer
  | [] => []
  | h :: hs =>
      hiddenGroup prev h dropout_prob use_layer_norm
        ++ hiddenChain h dropout_prob use_layer_norm hs

/-- The full layer list assembled by `MLPImpl::MLPImpl` after validation:
hidden chain, final `Linear(hidden_sizes.back(), output_size)`, and the end
activation when `EndActivationType` is not `torch::nn::Identity` (a
compile-time type choice, modelled by the flag `use_end_activation`). -/
def mlpLayers (input_size : ℤ) (hidden_sizes : List ℤ) (output_size : ℤ)
    (dropout_prob : ℚ) (use_layer_norm use_end_activation : Bool) : List Layer :=
  hiddenChain input_size dropout_prob use_layer_norm hidden_sizes
    ++ [Layer.linear (hidden_sizes.getLastD 0) output_size]
    ++ (if use_end_activation then [Layer.endActivation] else [])

/-- Model of `MLPImpl::MLPImpl`: the four validation checks in source order, then
the assembled layer stack.  `dropout_prob` is never validated. -/
def mkMLP (input_size : ℤ) (hidden_sizes : List ℤ) (output_size : ℤ)
    (dropout_prob : ℚ) (use_layer_norm use_end_activation : Bool) :
    Except Err (List Layer) :=
  if input_size < 1 then
    .error (.configError "MLPImpl::MLPImpl: input_size cannot be less than one.")
  else if output_size < 1 then
    .error (.configError "MLPImpl::MLPImpl: output_size cannot be less than one.")
  else if hidden_sizes.isEmpty then
    .error (.configError "MLPImpl::MLPImpl: hidden_sizes cannot be empty.")
  else if hidden_sizes.any (fun h => h < 1) then
    .error (.configError "MLPImpl::MLPImpl: All components of hidden_sizes must be greater than zero.")
  else
    .ok (mlpLayers input_size hidden_sizes output_size dropout_prob
      use_layer_norm use_end_activation)

/-- Model of `GATConvImpl::GATConvImpl`: the six validation checks in source order,
then the internal MLP with input width
`5 * input_node_attr_size + initial_node_attr_size + 4 * edge_attr_size`
and output width `output_node_attr_size`. -/
def mkGATConv (input_node_attr_size : ℤ) (hidden_sizes : List ℤ)
    (output_node_attr_size initial_node_attr_size edge_attr_size : ℤ)
    (dropout_prob : ℚ) (use_layer_norm use_end_activation : Bool) :
    Except Err (List Layer) :=
  if input_node_attr_size < 1 then
    .error (.configError "GATConvImpl::GATConvImpl: input_node_attr_size cannot be less than one.")
  else if output_node_attr_size < 1 then
    .error (.configError "GATConvImpl::GATConvImpl: output_node_attr_size cannot be less than one.")
  else if initial_node_attr_size < 1 then
    .error (.configError "GATConvImpl::GATConvImpl: initial_node_attr_size cannot be less than one.")
  else if edge_attr_size < 1 then
    .error (.configError "GATConvImpl::GATConvImpl: edge_attr_size cannot be less than one.")
  else if hidden_sizes.isEmpty then
    .error (.configError "GATConvImpl::GATConvImpl: hidden_sizes cannot be empty.")
  else if hidden_sizes.any (fun h => h < 1) then
    .error (.configError "GATConvImpl::GATConvImpl: All components of hidden_sizes must be greater than zero.")
  else
    mkMLP (5 * input_node_attr_size + initial_node_attr_size + 4 * edge_attr_size)
      hidden_sizes output_node_attr_size dropout_prob use_layer_norm
      use_end_activation

/-- Model of `NNImpl::NNImpl`: builds `gatconv1`, `gatconv2` and the reducer MLP
(input width `2 * output_node_attr_size`, output width `1`) and stores `k`.
The constructor performs no validation of its own; in particular `k` is
stored untouched. -/
def mkNN (node_attr_size : ℤ)
    (hidden_sizes_1 hidden_sizes_2 hidden_sizes_mlp : List ℤ)
    (output_node_attr_size edge_attr_size : ℤ) (dropout_prob : ℚ)
    (use_layer_norm : Bool) (k : ℤ) (use_end_activation : Bool) :
    Except Err (List Layer × List Layer × List Layer × ℤ) := do
  let gatconv1 ← mkGATConv node_attr_size hidden_sizes_1 output_node_attr_size
    node_attr_size edge_attr_size dropout_prob use_layer_norm use_end_activation
  let gatconv2 ← mkGATConv output_node_attr_size hidden_sizes_2 output_node_attr_size
    node_attr_size edge_attr_size dropout_prob use_layer_norm use_end_activation
  let mlp ← mkMLP (2 * output_node_attr_size) hidden_sizes_mlp 1 dropout_prob
    use_layer_norm use_end_activation
  .ok (gatconv1, gatconv2, mlp, k)

/-- Boolean success test for a constructor result. -/
def isOkB {α : Type} : Except Err α → Bool
  | .ok _ => true
  | .error _ => false

/-! ### The top-level model -/

/-- Runtime state of the `NNImpl` model: the two convolution layers (the
second one a single weight-shared instance), the reducer MLP, and `k`. -/
structure NN where
  gatconv1 : GATConv
  gatconv2 : GATConv
  mlp : Mat → Except Err Mat
  k : ℤ

/-- Iterate `n` applications of a fallible transform in sequence (used to state how
many times the loop body of `NNImpl::forward` runs). -/
def applyN (f : Mat → Except Err Mat) : ℕ → Mat → Except Err Mat
  | 0, x => .ok x
  | m + 1, x => (f x).bind (applyN f m)

/-- Model of `NNImpl::forward`: one `gatconv1` application with
`initial_node_attr = node_attr`, then the loop
`for (int i = 0; i < k - 1; ++i)` re-applying `gatconv2` to the running
embedding with the original `node_attr` as initial features, then the
per-edge endpoint gather, `(source, target)` concatenation, and the
reducer MLP. -/
def NN.forward (n : NN) (edge_index : EdgeIndex) (node_attr edge_attr : Mat)
    (edge_weight : List ℚ) : Except Err Mat := do
  let first ← n.gatconv1.forward edge_index node_attr edge_attr edge_weight node_attr
  let output_node_attr ←
    applyN (fun emb => n.gatconv2.forward edge_index emb edge_attr edge_weight node_attr)
      (n.k - 1).toNat first
  let node_attr_1 ← indexSelect output_node_attr edge_index.src
  let node_attr_2 ← indexSelect output_node_attr edge_index.tgt
  let output_edge_attr ← hcat node_attr_1 node_attr_2
  n.mlp output_edge_attr

/-! ### Specification helpers

`rowAcc` and `vecSum` describe what the scatter-sum computes: `rowAcc`
folds the message rows whose index equals `n` into a starting row, and
`vecSum` is the plain sum of a list of rows starting from a zero row. -/

/-- Accumulate into `start` every row of `pairs` whose index is `n`. -/
def rowAcc (n : ℕ) (start : List ℚ) (pairs : List (ℕ × List ℚ)) : List ℚ :=
  pairs.foldl (fun acc p => if p.1 = n then rowAdd acc p.2 else acc) start

/-- Sum of a list of width-`w` rows, starting from the zero row. -/
def vecSum (w : ℕ) (l : List (List ℚ)) : List ℚ :=
  l.foldl rowAdd (List.replicate w 0)

/-- The per-edge data of a graph: for each edge, its source index, target
index, edge-feature row and edge weight, in edge-list order.  Permuting the
edge list in lockstep permutes this list. -/
def quadList (e : EdgeIndex) (ea : Mat) (wt : List ℚ) :
    List (ℕ × ℕ × List ℚ × ℚ) :=
  e.src.zip (e.tgt.zip (ea.rows.zip wt))

/-- A trivial dense block returning a zero row of width `w` per input row;
it satisfies the dense-block contract at any input width (used to
instantiate contract hypotheses on concrete inputs). -/
def constMLP (w : ℕ) : Mat → Except Err Mat :=
  fun x => .ok ⟨w, x.rows.map (fun _ => List.replicate w 0)⟩

/-! ### Lemmas about the primitive tensor operations -/

theorem rowAdd_nil (b : List ℚ) : rowAdd [] b = [] := rfl

theorem rowAdd_length (a b : List ℚ) (h : b.length = a.length) :
    (rowAdd a b).length = a.length := by
  simp [rowAdd, h]

theorem rowAdd_right_comm (a b c : List ℚ) :
    rowAdd (rowAdd a b) c = rowAdd (rowAdd a c) b := by
  induction a generalizing b c with
  | nil => cases b <;> cases c <;> simp [rowAdd]
  | cons x xs ih =>
    cases b with
    | nil => cases c <;> simp [rowAdd]
    | cons y ys =>
      cases c with
      | nil => simp [rowAdd]
      | cons z zs =>
        simp only [rowAdd, List.zipWith_cons_cons] at ih ⊢
        refine congrArg₂ List.cons (by ring) (ih ys zs)

theorem rowAcc_nil_start (n : ℕ) (pairs : List (ℕ × List ℚ)) :
    rowAcc n [] pairs = [] := by
  induction pairs with
  | nil => rfl
  | cons p ps ih =>
    simp only [rowAcc, List.foldl_cons] at ih ⊢
    have hz : (if p.1 = n then rowAdd [] p.2 else []) = [] := by
      split <;> simp [rowAdd]
    rw [hz]; exact ih

theorem rowAcc_cons (n : ℕ) (start : List ℚ) (p : ℕ × List ℚ)
    (ps : List (ℕ × List ℚ)) :
    rowAcc n start (p :: ps) =
      rowAcc n (if p.1 = n then rowAdd start p.2 else start) ps := by
  simp [rowAcc, List.foldl_cons]

theorem rowAcc_length (n : ℕ) (w : ℕ) :
    ∀ (pairs : List (ℕ × List ℚ)) (start : List ℚ), start.length = w →
    (∀ p ∈ pairs, (p.2 : List ℚ).length = w) →
    (rowAcc n start pairs).length = w := by
  intro pairs
  induction pairs with
  | nil => intro start hs _; simpa [rowAcc] using hs
  | cons p ps ih =>
    intro start hs hp
    rw [rowAcc_cons]
    refine ih _ ?_ (fun q hq => hp q (List.mem_cons_of_mem _ hq))
    split
    · rw [rowAdd_length _ _ (by rw [hs, hp p (List.mem_cons_self _ _)])]; exact hs
    · exact hs

/-- Lemma: `rowAcc` is the sum of the rows selected by the filter on the index. -/
theorem rowAcc_eq_foldl_filter (n : ℕ) :
    ∀ (pairs : List (ℕ × List ℚ)) (start : List ℚ),
    rowAcc n start pairs =
      ((pairs.filter (fun p => p.1 = n)).map (fun p => p.2)).foldl rowAdd start := by
  intro pairs
  induction pairs with
  | nil => intro start; rfl
  | cons p ps ih =>
    intro start
    rw [rowAcc_cons]
    by_cases hp : p.1 = n
    · have hf : List.filter (fun q => decide (q.1 = n)) (p :: ps)
          = p :: List.filter (fun q => decide (q.1 = n)) ps :=
        List.filter_cons_of_pos (decide_eq_true hp)
      rw [if_pos hp, hf, List.map_cons, List.foldl_cons]
      exact ih _
    · have hf : List.filter (fun q => decide (q.1 = n)) (p :: ps)
          = List.filter (fun q => decide (q.1 = n)) ps :=
        List.filter_cons_of_neg (by simp [hp])
      rw [if_neg hp, hf]
      exact ih _

theorem gatherRows_ok (rows : List (List ℚ)) :
    ∀ (idx : List ℕ), (∀ i ∈ idx, i < rows.length) →
    gatherRows rows idx = .ok (idx.map (fun i => rows.getD i [])) := by
  intro idx
  induction idx with
  | nil => intro _; rfl
  | cons i is ih =>
    intro h
    have hi : i < rows.length := h i (List.mem_cons_self _ _)
    have hrest := ih (fun j hj => h j (List.mem_cons_of_mem _ hj))
    simp only [gatherRows, List.get?_eq_getElem?, List.getElem?_eq_getElem hi,
      hrest, List.map_cons, List.getD_eq_getElem _ _ hi]
    rfl

theorem gatherRows_err (rows : List (List ℚ)) :
    ∀ (idx : List ℕ), (∃ i ∈ idx, rows.length ≤ i) →
    gatherRows rows idx = .error .indexError := by
  intro idx
  induction idx with
  | nil => rintro ⟨i, hi, _⟩; exact absurd hi (List.not_mem_nil i)
  | cons i is ih =>
    rintro ⟨j, hj, hge⟩
    rcases List.mem_cons.mp hj with rfl | hj
    · have hnone : rows[j]? = none := List.getElem?_eq_none hge
      simp [gatherRows, List.get?_eq_getElem?, hnone]
    · cases hget : rows[i]? with
      | none => simp [gatherRows, List.get?_eq_getElem?, hget]
      | some r =>
        have htail := ih ⟨j, hj, hge⟩
        simp only [gatherRows, List.get?_eq_getElem?, hget, htail]
        rfl

theorem hcat_ok (a b : Mat) (h : a.rows.length = b.rows.length) :
    hcat a b = .ok ⟨a.cols + b.cols, List.zipWith (fun r s => r ++ s) a.rows b.rows⟩ := by
  simp [hcat, h]

theorem scaleRows_ok (w : List ℚ) (m : Mat) (h : w.length = m.rows.length) :
    scaleRows w m =
      .ok ⟨m.cols, List.zipWith (fun c r => r.map (fun x => c * x)) w m.rows⟩ := by
  simp [scaleRows, h]

theorem zerosMat_cols (n w : ℕ) : (zerosMat n w).cols = w := rfl

theorem zerosMat_rows_length (n w : ℕ) : (zerosMat n w).rows.length = n := by
  simp [zerosMat]

theorem addRowsAt_ok :
    ∀ (idx : List ℕ) (msgs base : List (List ℚ)),
    msgs.length = idx.length → (∀ i ∈ idx, i < base.length) →
    ∃ out, addRowsAt base idx msgs = .ok out ∧ out.length = base.length ∧
      ∀ n, n < base.length →
        out.getD n [] = rowAcc n (base.getD n []) (idx.zip msgs) := by
  intro idx
  induction idx with
  | nil =>
    intro msgs base hlen _
    rcases List.length_eq_zero.mp hlen with rfl
    exact ⟨base, rfl, rfl, fun n _ => rfl⟩
  | cons i is ih =>
    intro msgs base hlen hlt
    rcases msgs with _ | ⟨v, vs⟩
    · simp at hlen
    · have hi : i < base.length := hlt i (List.mem_cons_self _ _)
      have hstep : addRowsAt base (i :: is) (v :: vs) =
          addRowsAt (base.set i (rowAdd (base.getD i []) v)) is vs := by
        simp [addRowsAt, hi]
      have hlen2 : vs.length = is.length := by simpa using hlen
      have hlt2 : ∀ j ∈ is, j < (base.set i (rowAdd (base.getD i []) v)).length := by
        intro j hj; rw [List.length_set]; exact hlt j (List.mem_cons_of_mem _ hj)
      obtain ⟨out, hout, houtlen, hrow⟩ :=
        ih vs (base.set i (rowAdd (base.getD i []) v)) hlen2 hlt2
      refine ⟨out, hstep ▸ hout, by rw [houtlen, List.length_set], ?_⟩
      intro n hn
      rw [hrow n (by rwa [List.length_set]), List.zip_cons_cons, rowAcc_cons]
      congr 1
      by_cases hin : i = n
      · subst hin
        rw [if_pos rfl, List.getD_eq_getElem?_getD, List.getElem?_set_self hi,
          Option.getD_some]
      · rw [if_neg hin, List.getD_eq_getElem?_getD, List.getElem?_set_ne hin,
          List.getD_eq_getElem?_getD]

theorem addRowsAt_err :
    ∀ (idx : List ℕ) (msgs base : List (List ℚ)),
    msgs.length = idx.length → (∃ i ∈ idx, base.length ≤ i) →
    addRowsAt base idx msgs = .error .indexError := by
  intro idx
  induction idx with
  | nil => rintro msgs base _ ⟨i, hi, _⟩; exact absurd hi (List.not_mem_nil i)
  | cons i is ih =>
    rintro msgs base hlen ⟨j, hj, hge⟩
    rcases msgs with _ | ⟨v, vs⟩
    · simp at hlen
    · rcases List.mem_cons.mp hj with rfl | hj
      · simp [addRowsAt, Nat.not_lt.mpr hge]
      · by_cases hi : i < base.length
        · have hlen2 : vs.length = is.length := by simpa using hlen
          simp only [addRowsAt, if_pos hi]
          exact ih vs _ hlen2 ⟨j, hj, by rwa [List.length_set]⟩
        · simp [addRowsAt, hi]

theorem bind_ok_eq {α β : Type} (a : α) (f : α → Except Err β) :
    (do let x ← (Except.ok a : Except Err α); f x) = f a := rfl

theorem bind_err_eq {α β : Type} (err : Err) (f : α → Except Err β) :
    (do let x ← (Except.error err : Except Err α); f x) = Except.error err := rfl

theorem mem_zipWith_length {α : Type} (f : α → List ℚ → List ℚ) (as : List α)
    (bs : List (List ℚ)) (w : ℕ)
    (h : ∀ (a : α) (b : List ℚ), b ∈ bs → (f a b).length = w) :
    ∀ r ∈ List.zipWith f as bs, r.length = w := by
  intro r hr
  obtain ⟨i, hi, hget⟩ := List.mem_iff_getElem.mp hr
  have hib : i < bs.length := by
    have := hi; rw [List.length_zipWith] at this; omega
  rw [List.getElem_zipWith] at hget
  rw [← hget]
  exact h _ _ (List.getElem_mem hib)

theorem mem_zipWith_length2 (f : List ℚ → List ℚ → List ℚ)
    (as bs : List (List ℚ)) (w : ℕ)
    (h : ∀ a ∈ as, ∀ b ∈ bs, (f a b).length = w) :
    ∀ r ∈ List.zipWith f as bs, r.length = w := by
  intro r hr
  obtain ⟨i, hi, hget⟩ := List.mem_iff_getElem.mp hr
  have hib : i < as.length ∧ i < bs.length := by
    have := hi; rw [List.length_zipWith] at this; omega
  rw [List.getElem_zipWith] at hget
  rw [← hget]
  exact h _ (List.getElem_mem hib.1) _ (List.getElem_mem hib.2)

theorem gathered_length (na : Mat) (hwf : na.WF) (src : List ℕ)
    (hsrc : ∀ i ∈ src, i < na.rows.length) :
    ∀ r ∈ src.map (fun i => na.rows.getD i []), r.length = na.cols := by
  intro r hr
  obtain ⟨i, hi, rfl⟩ := List.mem_map.mp hr
  have hlt := hsrc i hi
  rw [List.getD_eq_getElem _ _ hlt]
  exact hwf _ (List.getElem_mem hlt)

/-- Success form of `GATConvImpl::message`: the gathered rows are the
source-node features; at hop 1 each is concatenated with the edge features
then scaled by the edge weight, otherwise only scaled. -/
theorem message_ok (e : EdgeIndex) (na ea : Mat) (wt : List ℚ) (hop : ℤ)
    (hsrc : ∀ i ∈ e.src, i < na.rows.length)
    (hlen_ea : ea.rows.length = e.src.length)
    (hlen_wt : wt.length = e.src.length) :
    message e na ea wt hop =
      if hop = 1 then
        .ok ⟨na.cols + ea.cols,
          List.zipWith (fun c r => r.map (fun x => c * x)) wt
            (List.zipWith (fun r s => r ++ s)
              (e.src.map (fun i => na.rows.getD i [])) ea.rows)⟩
      else
        .ok ⟨na.cols,
          List.zipWith (fun c r => r.map (fun x => c * x)) wt
            (e.src.map (fun i => na.rows.getD i []))⟩ := by
  have hg := gatherRows_ok na.rows e.src hsrc
  have hmaplen : (e.src.map (fun i => na.rows.getD i [])).length = e.src.length :=
    List.length_map _ _
  unfold message indexSelect
  rw [hg, bind_ok_eq, bind_ok_eq]
  by_cases hhop : hop = 1
  · rw [if_pos hhop, if_pos hhop,
      hcat_ok ⟨na.cols, e.src.map (fun i => na.rows.getD i [])⟩ ea
        (by rw [hmaplen, hlen_ea]),
      bind_ok_eq,
      scaleRows_ok _ _ (by simp [List.length_zipWith, hmaplen, hlen_ea, hlen_wt])]
  · rw [if_neg hhop, if_neg hhop, scaleRows_ok _ _ (by rw [hlen_wt, hmaplen])]

/-- Success form of `GATConvImpl::aggregate`: the result has `num_nodes`
rows and the message width; row `n` accumulates exactly the message rows
whose target index is `n`. -/
theorem aggregate_ok (e : EdgeIndex) (msgs : Mat) (N : ℕ)
    (hlen : e.tgt.length = msgs.rows.length)
    (htgt : ∀ t ∈ e.tgt, t < N) :
    ∃ M, aggregate e msgs N = .ok M ∧ M.cols = msgs.cols ∧
      M.rows.length = N ∧
      ∀ n, n < N →
        M.rows.getD n [] =
          rowAcc n (List.replicate msgs.cols 0) (e.tgt.zip msgs.rows) := by
  obtain ⟨out, hout, hlenout, hrow⟩ :=
    addRowsAt_ok e.tgt msgs.rows (zerosMat N msgs.cols).rows hlen.symm
      (by intro i hi; simpa [zerosMat] using htgt i hi)
  have hNlen : (zerosMat N msgs.cols).rows.length = N := by simp [zerosMat]
  refine ⟨⟨msgs.cols, out⟩, ?_, rfl, by rw [hlenout, hNlen], ?_⟩
  · unfold aggregate indexAdd
    rw [if_pos (show msgs.cols = (zerosMat N msgs.cols).cols from rfl), hout]
    rfl
  · intro n hn
    have hbase : (zerosMat N msgs.cols).rows.getD n [] = List.replicate msgs.cols 0 := by
      simp [zerosMat, List.getD_eq_getElem?_getD, List.getElem?_replicate, hn]
    have := hrow n (by rwa [hNlen])
    rwa [hbase] at this

/-- Lemma: `aggregate` on rectangular messages yields a rectangular result, with
row `n` accumulating the message rows targeted at `n`. -/
theorem aggregate_ok_WF (e : EdgeIndex) (msgs : Mat) (N : ℕ)
    (hlen : e.tgt.length = msgs.rows.length)
    (htgt : ∀ t ∈ e.tgt, t < N) (hwf : msgs.WF) :
    ∃ M, aggregate e msgs N = .ok M ∧ M.cols = msgs.cols ∧
      M.rows.length = N ∧ M.WF ∧
      ∀ n, n < N →
        M.rows.getD n [] =
          rowAcc n (List.replicate msgs.cols 0) (e.tgt.zip msgs.rows) := by
  obtain ⟨M, hM, hcols, hlenM, hrow⟩ := aggregate_ok e msgs N hlen htgt
  refine ⟨M, hM, hcols, hlenM, ?_, hrow⟩
  intro r hr
  obtain ⟨n, hn, rfl⟩ := List.mem_iff_getElem.mp hr
  rw [← List.getD_eq_getElem _ [] hn, hrow n (hlenM ▸ hn), hcols]
  refine rowAcc_length n msgs.cols _ _ (List.length_replicate _ _) ?_
  rintro ⟨t, v⟩ hp
  exact hwf v (List.of_mem_zip hp).2

/-- Success form of `GATConvImpl::propagate` on a well-formed graph: the
result has one row per node of `node_attr`, and width
`node_attr.cols + edge_attr.cols` at hop 1 (message = scaled concatenation)
or `node_attr.cols` otherwise. -/
theorem propagate_ok (e : EdgeIndex) (na ea : Mat) (wt : List ℚ) (hop : ℤ)
    (hwfna : na.WF) (hwfea : ea.WF)
    (hsrc : ∀ i ∈ e.src, i < na.rows.length)
    (htgt : ∀ t ∈ e.tgt, t < na.rows.length)
    (hst : e.tgt.length = e.src.length)
    (hlen_ea : ea.rows.length = e.src.length)
    (hlen_wt : wt.length = e.src.length) :
    ∃ M, propagate e na ea wt hop = .ok M ∧
      M.cols = (if hop = 1 then na.cols + ea.cols else na.cols) ∧
      M.rows.length = na.rows.length ∧ M.WF := by
  have hmsg := message_ok e na ea wt hop hsrc hlen_ea hlen_wt
  have hgath := gathered_length na hwfna e.src hsrc
  by_cases hhop : hop = 1
  · rw [if_pos hhop] at hmsg
    rw [if_pos hhop]
    have hmsglen :
        (List.zipWith (fun c r => r.map (fun x => c * x)) wt
          (List.zipWith (fun r s => r ++ s)
            (e.src.map (fun i => na.rows.getD i [])) ea.rows)).length
          = e.src.length := by
      simp [List.length_zipWith, hlen_wt, hlen_ea]
    have hmsgWF : (⟨na.cols + ea.cols,
        List.zipWith (fun c r => r.map (fun x => c * x)) wt
          (List.zipWith (fun r s => r ++ s)
            (e.src.map (fun i => na.rows.getD i [])) ea.rows)⟩ : Mat).WF := by
      refine mem_zipWith_length _ _ _ _ ?_
      intro c r hr
      rw [List.length_map]
      refine mem_zipWith_length2 (fun r s => r ++ s) _ _ _ ?_ r hr
      intro a ha b hb
      rw [List.length_append, hgath a ha, hwfea b hb]
    obtain ⟨M, hM, hcols, hlenM, hWF, _⟩ :=
      aggregate_ok_WF e ⟨na.cols + ea.cols, _⟩ na.rows.length
        (by rw [hmsglen]; exact hst) htgt hmsgWF
    refine ⟨M, ?_, hcols, hlenM, hWF⟩
    unfold propagate
    rw [hmsg, bind_ok_eq]
    exact hM
  · rw [if_neg hhop] at hmsg
    rw [if_neg hhop]
    have hmsglen :
        (List.zipWith (fun c r => r.map (fun x => c * x)) wt
          (e.src.map (fun i => na.rows.getD i []))).length = e.src.length := by
      simp [List.length_zipWith, hlen_wt]
    have hmsgWF : (⟨na.cols,
        List.zipWith (fun c r => r.map (fun x => c * x)) wt
          (e.src.map (fun i => na.rows.getD i []))⟩ : Mat).WF := by
      refine mem_zipWith_length _ _ _ _ ?_
      intro c r hr
      rw [List.length_map]
      exact hgath r hr
    obtain ⟨M, hM, hcols, hlenM, hWF, _⟩ :=
      aggregate_ok_WF e ⟨na.cols, _⟩ na.rows.length
        (by rw [hmsglen]; exact hst) htgt hmsgWF
    refine ⟨M, ?_, hcols, hlenM, hWF⟩
    unfold propagate
    rw [hmsg, bind_ok_eq]
    exact hM

theorem hcatAll_ok : ∀ (ms : List Mat) (N : ℕ), ms ≠ [] →
    (∀ m ∈ ms, m.rows.length = N) → (∀ m ∈ ms, m.WF) →
    ∃ C, hcatAll ms = .ok C ∧ C.cols = (ms.map Mat.cols).sum ∧
      C.rows.length = N ∧ C.WF := by
  intro ms
  induction ms with
  | nil => intro N h _ _; exact absurd rfl h
  | cons m tail ih =>
    intro N _ hlen hwf
    cases tail with
    | nil =>
      exact ⟨m, rfl, by simp, hlen m (List.mem_cons_self _ _),
        hwf m (List.mem_cons_self _ _)⟩
    | cons m2 rest =>
      obtain ⟨C, hC, hcols, hlenC, hwfC⟩ :=
        ih N (by simp) (fun q hq => hlen q (List.mem_cons_of_mem _ hq))
          (fun q hq => hwf q (List.mem_cons_of_mem _ hq))
      have hm : m.rows.length = N := hlen m (List.mem_cons_self _ _)
      have hstep : hcatAll (m :: m2 :: rest)
          = Bind.bind (hcatAll (m2 :: rest)) (fun r => hcat m r) := rfl
      rw [hstep, hC, bind_ok_eq, hcat_ok m C (by rw [hm, hlenC])]
      refine ⟨_, rfl, ?_, ?_, ?_⟩
      · simp [hcols]
      · simp [List.length_zipWith, hm, hlenC]
      · refine mem_zipWith_length2 (fun r s => r ++ s) _ _ _ ?_
        intro a ha b hb
        rw [List.length_append, hwf m (List.mem_cons_self _ _) a ha, hwfC b hb]

/-- The contract of the dense block (`DenseBlock` in the spec, `MLPImpl`
in the source): on a rectangular input of its configured input width it
succeeds, preserving the row count and producing its configured output
width.  The dense block is an external collaborator of the core, specified
only by this contract. -/
def MLPContract (f : Mat → Except Err Mat) (inW outW : ℕ) : Prop :=
  ∀ x : Mat, x.WF → x.cols = inW →
    ∃ y, f x = .ok y ∧ y.cols = outW ∧ y.rows.length = x.rows.length ∧ y.WF

/-- Success form of `GATConvImpl::forward` on a well-formed graph: all
four propagate rounds succeed, the six-block concatenation has exactly the
dense block's input width `5 * naW + iniW + 4 * eaW`, and the output has
one row per node and the dense block's output width. -/
theorem GATConv.forward_ok (c : GATConv) (naW eaW iniW outW : ℕ)
    (hc : MLPContract c.mlp (5 * naW + iniW + 4 * eaW) outW)
    (e : EdgeIndex) (na ea ina : Mat) (wt : List ℚ)
    (hna : na.cols = naW) (hwfna : na.WF)
    (hea : ea.cols = eaW) (hwfea : ea.WF)
    (hina : ina.cols = iniW) (hwfina : ina.WF)
    (hinalen : ina.rows.length = na.rows.length)
    (hst : e.tgt.length = e.src.length)
    (hlen_ea : ea.rows.length = e.src.length)
    (hlen_wt : wt.length = e.src.length)
    (hsrc : ∀ i ∈ e.src, i < na.rows.length)
    (htgt : ∀ t ∈ e.tgt, t < na.rows.length) :
    ∃ y, c.forward e na ea wt ina = .ok y ∧
      y.cols = outW ∧ y.rows.length = na.rows.length ∧ y.WF := by
  obtain ⟨M1, hM1, hM1c, hM1l, hM1w⟩ :=
    propagate_ok e na ea wt 1 hwfna hwfea hsrc htgt hst hlen_ea hlen_wt
  obtain ⟨M2, hM2, hM2c, hM2l, hM2w⟩ :=
    propagate_ok e.flip0 na ea wt 1 hwfna hwfea htgt hsrc hst.symm
      (by rw [hlen_ea, ← hst]; rfl) (by rw [hlen_wt, ← hst]; rfl)
  obtain ⟨M3, hM3, hM3c, hM3l, hM3w⟩ :=
    propagate_ok e M1 ea wt 2 hM1w hwfea (by rw [hM1l]; exact hsrc)
      (by rw [hM1l]; exact htgt) hst hlen_ea hlen_wt
  obtain ⟨M4, hM4, hM4c, hM4l, hM4w⟩ :=
    propagate_ok e.flip0 M2 ea wt 2 hM2w hwfea (by rw [hM2l]; exact htgt)
      (by rw [hM2l]; exact hsrc) hst.symm
      (by rw [hlen_ea, ← hst]; rfl) (by rw [hlen_wt, ← hst]; rfl)
  rw [if_pos rfl] at hM1c hM2c
  rw [if_neg (by decide)] at hM3c hM4c
  obtain ⟨C, hC, hCc, hCl, hCw⟩ :=
    hcatAll_ok [ina, na, M1, M2, M3, M4] na.rows.length (by simp)
      (by
        intro m hm
        simp only [List.mem_cons, List.not_mem_nil, or_false] at hm
        rcases hm with rfl | rfl | rfl | rfl | rfl | rfl
        · exact hinalen
        · rfl
        · exact hM1l
        · exact hM2l
        · rw [hM3l, hM1l]
        · rw [hM4l, hM2l])
      (by
        intro m hm
        simp only [List.mem_cons, List.not_mem_nil, or_false] at hm
        rcases hm with rfl | rfl | rfl | rfl | rfl | rfl
        · exact hwfina
        · exact hwfna
        · exact hM1w
        · exact hM2w
        · exact hM3w
        · exact hM4w)
  have hCcols : C.cols = 5 * naW + iniW + 4 * eaW := by
    rw [hCc]
    simp only [List.map_cons, List.map_nil, List.sum_cons, List.sum_nil]
    rw [hM1c, hM2c, hM3c, hM4c, hM1c, hM2c, hna, hea, hina]
    ring
  obtain ⟨y, hy, hyc, hyl, hyw⟩ := hc C hCw hCcols
  refine ⟨y, ?_, hyc, by rw [hyl, hCl], hyw⟩
  unfold GATConv.forward
  rw [hM1, bind_ok_eq, hM2, bind_ok_eq, hM3, bind_ok_eq, hM4, bind_ok_eq,
    hC, bind_ok_eq]
  exact hy

theorem constMLP_contract (inW w : ℕ) : MLPContract (constMLP w) inW w := by
  intro x _ _
  refine ⟨⟨w, x.rows.map (fun _ => List.replicate w 0)⟩, rfl, rfl, by simp, ?_⟩
  intro r hr
  obtain ⟨s, _, rfl⟩ := List.mem_map.mp hr
  exact List.length_replicate _ _

theorem getD_zipWith_of_lt {α β γ : Type} (f : α → β → γ) (as : List α)
    (bs : List β) (i : ℕ) (ha : i < as.length) (hb : i < bs.length)
    (da : α) (db : β) (dc : γ) :
    (List.zipWith f as bs).getD i dc = f (as.getD i da) (bs.getD i db) := by
  rw [List.getD_eq_getElem _ _ (by rw [List.length_zipWith]; omega),
    List.getElem_zipWith, List.getD_eq_getElem _ _ ha, List.getD_eq_getElem _ _ hb]

theorem getD_map_of_lt {α β : Type} (f : α → β) (as : List α) (i : ℕ)
    (ha : i < as.length) (da : α) (db : β) :
    (as.map f).getD i db = f (as.getD i da) := by
  rw [List.getD_eq_getElem _ _ (by rwa [List.length_map]),
    List.getElem_map, List.getD_eq_getElem _ _ ha]

/-- Iterating a shape-preserving transform preserves the shape. -/
theorem applyN_ok (f : Mat → Except Err Mat) (N w : ℕ)
    (hf : ∀ x : Mat, x.WF → x.cols = w → x.rows.length = N →
      ∃ y, f x = .ok y ∧ y.cols = w ∧ y.rows.length = N ∧ y.WF) :
    ∀ (m : ℕ) (x : Mat), x.WF → x.cols = w → x.rows.length = N →
    ∃ y, applyN f m x = .ok y ∧ y.cols = w ∧ y.rows.length = N ∧ y.WF := by
  intro m
  induction m with
  | zero => intro x hwf hc hl; exact ⟨x, rfl, hc, hl, hwf⟩
  | succ k ih =>
    intro x hwf hc hl
    obtain ⟨y, hy, hyc, hyl, hyw⟩ := hf x hwf hc hl
    obtain ⟨z, hz, hzc, hzl, hzw⟩ := ih y hyw hyc hyl
    refine ⟨z, ?_, hzc, hzl, hzw⟩
    show (f x).bind (applyN f k) = .ok z
    rw [hy]
    exact hz

/-- An out-of-range source or target entry makes `propagate` fail with the
index error (never a shape error, never silently). -/
theorem propagate_err (e : EdgeIndex) (na ea : Mat) (wt : List ℚ) (hop : ℤ)
    (hst : e.tgt.length = e.src.length)
    (hlen_ea : ea.rows.length = e.src.length)
    (hlen_wt : wt.length = e.src.length)
    (hbad : ∃ i, (i ∈ e.src ∨ i ∈ e.tgt) ∧ na.rows.length ≤ i) :
    propagate e na ea wt hop = .error .indexError := by
  by_cases hsrc : ∀ i ∈ e.src, i < na.rows.length
  · obtain ⟨i, hi, hge⟩ := hbad
    have hitgt : i ∈ e.tgt := by
      rcases hi with hi | hi
      · exact absurd (hsrc i hi) (Nat.not_lt.mpr hge)
      · exact hi
    have hmsg := message_ok e na ea wt hop hsrc hlen_ea hlen_wt
    unfold propagate
    by_cases hhop : hop = 1
    · rw [if_pos hhop] at hmsg
      rw [hmsg, bind_ok_eq]
      unfold aggregate indexAdd
      rw [zerosMat_cols, if_pos rfl,
        addRowsAt_err e.tgt _ _
          (by simp [List.length_zipWith, hlen_wt, hlen_ea, hst])
          ⟨i, hitgt, by simpa [zerosMat] using hge⟩]
      rfl
    · rw [if_neg hhop] at hmsg
      rw [hmsg, bind_ok_eq]
      unfold aggregate indexAdd
      rw [zerosMat_cols, if_pos rfl,
        addRowsAt_err e.tgt _ _
          (by simp [List.length_zipWith, hlen_wt, hst])
          ⟨i, hitgt, by simpa [zerosMat] using hge⟩]
      rfl
  · push_neg at hsrc
    obtain ⟨i, hi, hge⟩ := hsrc
    have hg : gatherRows na.rows e.src = .error .indexError :=
      gatherRows_err na.rows e.src ⟨i, hi, hge⟩
    unfold propagate message indexSelect
    rw [hg]
    rfl

/-! ### Claim theorems -/

/-- Claim C1: for every input, `GATConvImpl::forward` computes exactly the
reversed edge list obtained by swapping the source and target rows, the
four propagate rounds (`one_hop_incoming`/`one_hop_outgoing` at hop 1 on
the node features, `two_hop_incoming`/`two_hop_outgoing` at hop 2 on the
respective one-hop results), the feature-axis concatenation in the order
`(initial_node_attr, node_attr, one_hop_incoming, one_hop_outgoing,
two_hop_incoming, two_hop_outgoing)`, and returns the internal dense block
applied to it. -/
theorem claim_C1 (c : GATConv) (e : EdgeIndex) (na ea ina : Mat) (wt : List ℚ) :
    c.forward e na ea wt ina =
      (propagate e na ea wt 1).bind (fun one_hop_incoming =>
        (propagate ⟨e.tgt, e.src⟩ na ea wt 1).bind (fun one_hop_outgoing =>
          (propagate e one_hop_incoming ea wt 2).bind (fun two_hop_incoming =>
            (propagate ⟨e.tgt, e.src⟩ one_hop_outgoing ea wt 2).bind
              (fun two_hop_outgoing =>
                (hcatAll [ina, na, one_hop_incoming, one_hop_outgoing,
                    two_hop_incoming, two_hop_outgoing]).bind c.mlp)))) := rfl

/-- Claim C2: `GATConvImpl::message` gathers the source-node features
`node_attr[source[e]]` of every edge; at `hop == 1` the message row of edge
`i` is `edge_weight[i] * concat(node_attr[source[i]], edge_attr[i])`, and
at `hop != 1` it is `edge_weight[i] * node_attr[source[i]]` with no
edge-feature concatenation. -/
theorem claim_C2 (e : EdgeIndex) (na ea : Mat) (wt : List ℚ) (hop : ℤ)
    (hsrc : ∀ i ∈ e.src, i < na.rows.length)
    (hlen_ea : ea.rows.length = e.src.length)
    (hlen_wt : wt.length = e.src.length) :
    ∃ msgs, message e na ea wt hop = .ok msgs ∧
      msgs.rows.length = e.src.length ∧
      ∀ i, i < e.src.length →
        msgs.rows.getD i [] =
          if hop = 1 then
            ((na.rows.getD (e.src.getD i 0) []) ++ ea.rows.getD i []).map
              (fun x => wt.getD i 0 * x)
          else
            (na.rows.getD (e.src.getD i 0) []).map (fun x => wt.getD i 0 * x) := by
  have hmsg := message_ok e na ea wt hop hsrc hlen_ea hlen_wt
  by_cases hhop : hop = 1
  · rw [if_pos hhop] at hmsg
    refine ⟨_, hmsg, ?_, ?_⟩
    · simp [List.length_zipWith, hlen_wt, hlen_ea]
    · intro i hi
      rw [if_pos hhop]
      have hwti : i < wt.length := by rw [hlen_wt]; exact hi
      have hmapi : i < (e.src.map (fun j => na.rows.getD j [])).length := by
        rw [List.length_map]; exact hi
      have hinner : i < (List.zipWith (fun r s => r ++ s)
          (e.src.map (fun j => na.rows.getD j [])) ea.rows).length := by
        rw [List.length_zipWith, List.length_map, hlen_ea]
        omega
      show (List.zipWith (fun c r => r.map (fun x => c * x)) wt
          (List.zipWith (fun r s => r ++ s)
            (e.src.map (fun j => na.rows.getD j [])) ea.rows)).getD i [] = _
      rw [getD_zipWith_of_lt _ _ _ i hwti hinner 0 [] [],
        getD_zipWith_of_lt _ _ _ i hmapi (by rw [hlen_ea]; exact hi) [] [] [],
        getD_map_of_lt _ _ i hi 0 []]
  · rw [if_neg hhop] at hmsg
    refine ⟨_, hmsg, ?_, ?_⟩
    · simp [List.length_zipWith, hlen_wt]
    · intro i hi
      rw [if_neg hhop]
      have hwti : i < wt.length := by rw [hlen_wt]; exact hi
      have hmapi : i < (e.src.map (fun j => na.rows.getD j [])).length := by
        rw [List.length_map]; exact hi
      show (List.zipWith (fun c r => r.map (fun x => c * x)) wt
          (e.src.map (fun j => na.rows.getD j []))).getD i [] = _
      rw [getD_zipWith_of_lt _ _ _ i hwti hmapi 0 [] [],
        getD_map_of_lt _ _ i hi 0 []]

theorem claim_C2_witness :
    ∃ msgs, message ⟨[0], [1]⟩ ⟨1, [[2], [3]]⟩ ⟨1, [[5]]⟩ [7] 1 = .ok msgs ∧
      msgs.rows.length = ([0] : List ℕ).length ∧
      ∀ i, i < ([0] : List ℕ).length →
        msgs.rows.getD i [] =
          if (1 : ℤ) = 1 then
            (((⟨1, [[2], [3]]⟩ : Mat).rows.getD (([0] : List ℕ).getD i 0) [])
              ++ (⟨1, [[5]]⟩ : Mat).rows.getD i []).map
                (fun x => ([7] : List ℚ).getD i 0 * x)
          else
            ((⟨1, [[2], [3]]⟩ : Mat).rows.getD (([0] : List ℕ).getD i 0) []).map
              (fun x => ([7] : List ℚ).getD i 0 * x) :=
  claim_C2 ⟨[0], [1]⟩ ⟨1, [[2], [3]]⟩ ⟨1, [[5]]⟩ [7] 1
    (by decide) (by decide) (by decide)

/-- Claim C3: `GATConvImpl::aggregate` returns a `[num_nodes, width]`
matrix whose row `n` is the sum of the message rows of the edges whose
target is `n`, and whose row `n` is the zero row when no edge targets
`n`. -/
theorem claim_C3 (e : EdgeIndex) (messages : Mat) (num_nodes : ℕ)
    (hlen : e.tgt.length = messages.rows.length)
    (htgt : ∀ t ∈ e.tgt, t < num_nodes)
    (hwf : messages.WF) :
    ∃ M, aggregate e messages num_nodes = .ok M ∧
      M.rows.length = num_nodes ∧ M.cols = messages.cols ∧ M.WF ∧
      (∀ n, n < num_nodes →
        M.rows.getD n [] =
          vecSum messages.cols
            (((e.tgt.zip messages.rows).filter (fun p => p.1 = n)).map
              (fun p => p.2))) ∧
      (∀ n, n < num_nodes → (∀ t ∈ e.tgt, t ≠ n) →
        M.rows.getD n [] = List.replicate messages.cols 0) := by
  obtain ⟨M, hM, hcols, hlenM, hWF, hrow⟩ :=
    aggregate_ok_WF e messages num_nodes hlen htgt hwf
  have hvec : ∀ n, n < num_nodes →
      M.rows.getD n [] =
        vecSum messages.cols
          (((e.tgt.zip messages.rows).filter (fun p => p.1 = n)).map
            (fun p => p.2)) := by
    intro n hn
    rw [hrow n hn, rowAcc_eq_foldl_filter]
    rfl
  refine ⟨M, hM, hlenM, hcols, hWF, hvec, ?_⟩
  intro n hn hnone
  rw [hvec n hn]
  have hfil : (e.tgt.zip messages.rows).filter (fun p => decide (p.1 = n)) = [] := by
    rw [List.filter_eq_nil_iff]
    rintro ⟨t, v⟩ hp
    simp only [decide_eq_true_eq]
    exact hnone t (List.of_mem_zip hp).1
  rw [hfil]
  rfl

theorem claim_C3_witness :
    ∃ M, aggregate ⟨[0], [1]⟩ ⟨2, [[1, 2]]⟩ 3 = .ok M ∧
      M.rows.length = 3 ∧ M.cols = (⟨2, [[1, 2]]⟩ : Mat).cols ∧ M.WF ∧
      (∀ n, n < 3 →
        M.rows.getD n [] =
          vecSum (⟨2, [[1, 2]]⟩ : Mat).cols
            (((([1] : List ℕ).zip (⟨2, [[1, 2]]⟩ : Mat).rows).filter
              (fun p => p.1 = n)).map (fun p => p.2))) ∧
      (∀ n, n < 3 → (∀ t ∈ ([1] : List ℕ), t ≠ n) →
        M.rows.getD n [] = List.replicate (⟨2, [[1, 2]]⟩ : Mat).cols 0) :=
  claim_C3 ⟨[0], [1]⟩ ⟨2, [[1, 2]]⟩ 3 (by decide) (by decide) (by decide)

/-- Claim C9: an `edge_index` entry outside `[0, N)` (in either the source
or the target row) makes `GATConvImpl::forward` fail with the index-range
error during the gather/aggregate step — never silently clamped or
dropped, and no output is produced. -/
theorem claim_C9 (c : GATConv) (e : EdgeIndex) (na ea ina : Mat) (wt : List ℚ)
    (hst : e.tgt.length = e.src.length)
    (hlen_ea : ea.rows.length = e.src.length)
    (hlen_wt : wt.length = e.src.length)
    (hbad : ∃ i, (i ∈ e.src ∨ i ∈ e.tgt) ∧ na.rows.length ≤ i) :
    c.forward e na ea wt ina = .error .indexError := by
  have h1 := propagate_err e na ea wt 1 hst hlen_ea hlen_wt hbad
  unfold GATConv.forward
  rw [h1]
  rfl

theorem claim_C9_witness :
    GATConv.forward ⟨constMLP 1⟩ ⟨[5], [0]⟩ ⟨1, [[1]]⟩ ⟨1, [[2]]⟩ [3] ⟨1, [[4]]⟩
      = .error .indexError :=
  claim_C9 ⟨constMLP 1⟩ ⟨[5], [0]⟩ ⟨1, [[1]]⟩ ⟨1, [[2]]⟩ ⟨1, [[4]]⟩ [3]
    (by decide) (by decide) (by decide) ⟨5, Or.inl (by decide), by decide⟩

/-! ### Constructor lemmas and claims -/

theorem mkMLP_ok_iff (i : ℤ) (hs : List ℤ) (o : ℤ) (p : ℚ) (ln u : Bool) :
    isOkB (mkMLP i hs o p ln u) = true ↔
      (1 ≤ i ∧ 1 ≤ o ∧ hs ≠ [] ∧ ∀ x ∈ hs, 1 ≤ x) := by
  unfold mkMLP
  split_ifs with h1 h2 h3 h4
  · refine iff_of_false (by simp [isOkB]) ?_
    rintro ⟨hi, -, -, -⟩; omega
  · refine iff_of_false (by simp [isOkB]) ?_
    rintro ⟨-, ho, -, -⟩; omega
  · refine iff_of_false (by simp [isOkB]) ?_
    rintro ⟨-, -, hne, -⟩; exact hne (List.isEmpty_iff.mp h3)
  · refine iff_of_false (by simp [isOkB]) ?_
    rintro ⟨-, -, -, hall⟩
    obtain ⟨x, hx, hlt⟩ := List.any_eq_true.mp h4
    exact absurd (hall x hx) (by simpa using hlt)
  · refine iff_of_true (by simp [isOkB]) ?_
    refine ⟨by omega, by omega, fun hnil => h3 (by simp [hnil]), ?_⟩
    intro x hx
    by_contra hlt
    exact h4 (List.any_eq_true.mpr ⟨x, hx, by simpa using hlt⟩)

theorem mkMLP_error_config (i : ℤ) (hs : List ℤ) (o : ℤ) (p : ℚ) (ln u : Bool)
    (err : Err) (h : mkMLP i hs o p ln u = .error err) :
    ∃ s, err = .configError s := by
  unfold mkMLP at h
  split_ifs at h <;> cases h <;> exact ⟨_, rfl⟩

theorem mkGATConv_ok_iff (i : ℤ) (hs : List ℤ) (o ini ew : ℤ) (p : ℚ)
    (ln u : Bool) :
    isOkB (mkGATConv i hs o ini ew p ln u) = true ↔
      (1 ≤ i ∧ 1 ≤ o ∧ 1 ≤ ini ∧ 1 ≤ ew ∧ hs ≠ [] ∧ ∀ x ∈ hs, 1 ≤ x) := by
  unfold mkGATConv
  split_ifs with h1 h2 h3 h4 h5 h6
  · refine iff_of_false (by simp [isOkB]) ?_
    rintro ⟨hi, -⟩; omega
  · refine iff_of_false (by simp [isOkB]) ?_
    rintro ⟨-, ho, -⟩; omega
  · refine iff_of_false (by simp [isOkB]) ?_
    rintro ⟨-, -, hini, -⟩; omega
  · refine iff_of_false (by simp [isOkB]) ?_
    rintro ⟨-, -, -, hew, -⟩; omega
  · refine iff_of_false (by simp [isOkB]) ?_
    rintro ⟨-, -, -, -, hne, -⟩; exact hne (List.isEmpty_iff.mp h5)
  · refine iff_of_false (by simp [isOkB]) ?_
    rintro ⟨-, -, -, -, -, hall⟩
    obtain ⟨x, hx, hlt⟩ := List.any_eq_true.mp h6
    exact absurd (hall x hx) (by simpa using hlt)
  · rw [mkMLP_ok_iff]
    constructor
    · rintro ⟨-, ho, hne, hall⟩
      exact ⟨by omega, by omega, by omega, by omega, hne, hall⟩
    · rintro ⟨hi, ho, hini, hew, hne, hall⟩
      exact ⟨by omega, by omega, hne, hall⟩

theorem mkGATConv_error_config (i : ℤ) (hs : List ℤ) (o ini ew : ℤ) (p : ℚ)
    (ln u : Bool) (err : Err)
    (h : mkGATConv i hs o ini ew p ln u = .error err) :
    ∃ s, err = .configError s := by
  unfold mkGATConv at h
  split_ifs at h
  · cases h; exact ⟨_, rfl⟩
  · cases h; exact ⟨_, rfl⟩
  · cases h; exact ⟨_, rfl⟩
  · cases h; exact ⟨_, rfl⟩
  · cases h; exact ⟨_, rfl⟩
  · cases h; exact ⟨_, rfl⟩
  · exact mkMLP_error_config _ _ _ _ _ _ _ h

/-- Under valid sizes, `GATConvImpl::GATConvImpl` builds its dense block
through `MLPImpl` with input width exactly
`5 * input + initial + 4 * edge`. -/
theorem mkGATConv_eq_mkMLP (i : ℤ) (hs : List ℤ) (o ini ew : ℤ) (p : ℚ)
    (ln u : Bool) (hi : 1 ≤ i) (ho : 1 ≤ o) (hini : 1 ≤ ini) (hew : 1 ≤ ew)
    (hne : hs ≠ []) (hall : ∀ x ∈ hs, 1 ≤ x) :
    mkGATConv i hs o ini ew p ln u
      = mkMLP (5 * i + ini + 4 * ew) hs o p ln u := by
  have h5 : ¬ hs.isEmpty = true := fun h => hne (List.isEmpty_iff.mp h)
  have h6 : ¬ (hs.any (fun h => h < 1)) = true := by
    intro hc
    obtain ⟨x, hx, hlt⟩ := List.any_eq_true.mp hc
    exact absurd (hall x hx) (by simpa using hlt)
  unfold mkGATConv
  rw [if_neg (by omega), if_neg (by omega), if_neg (by omega), if_neg (by omega),
    if_neg h5, if_neg h6]

/-- Claim C7: `MLPImpl` (the spec's DenseBlock) and `GATConvImpl` (the
spec's GraphConv) raise a `ConfigError` exactly when a size constraint is
violated — a width parameter below 1, an empty `hidden_sizes`, or a hidden
size below 1 — and construction succeeds otherwise; every construction
failure is a `ConfigError`. -/
theorem claim_C7 :
    (∀ (i : ℤ) (hs : List ℤ) (o : ℤ) (p : ℚ) (ln u : Bool),
      (isOkB (mkMLP i hs o p ln u) = true ↔
        (1 ≤ i ∧ 1 ≤ o ∧ hs ≠ [] ∧ ∀ x ∈ hs, 1 ≤ x)) ∧
      (∀ err, mkMLP i hs o p ln u = .error err → ∃ s, err = .configError s)) ∧
    (∀ (i : ℤ) (hs : List ℤ) (o ini ew : ℤ) (p : ℚ) (ln u : Bool),
      (isOkB (mkGATConv i hs o ini ew p ln u) = true ↔
        (1 ≤ i ∧ 1 ≤ o ∧ 1 ≤ ini ∧ 1 ≤ ew ∧ hs ≠ [] ∧ ∀ x ∈ hs, 1 ≤ x)) ∧
      (∀ err, mkGATConv i hs o ini ew p ln u = .error err →
        ∃ s, err = .configError s)) :=
  ⟨fun i hs o p ln u =>
    ⟨mkMLP_ok_iff i hs o p ln u, fun err h => mkMLP_error_config i hs o p ln u err h⟩,
   fun i hs o ini ew p ln u =>
    ⟨mkGATConv_ok_iff i hs o ini ew p ln u,
     fun err h => mkGATConv_error_config i hs o ini ew p ln u err h⟩⟩

theorem claim_C7_witness :
    isOkB (mkMLP 3 [4] 2 0 true false) = true ∧
      isOkB (mkMLP 0 [4] 2 0 true false) = false ∧
      isOkB (mkGATConv 3 [4] 2 2 2 0 true false) = true ∧
      isOkB (mkGATConv 3 [0] 2 2 2 0 true false) = false :=
  ⟨((claim_C7.1 3 [4] 2 0 true false).1).mpr (by decide),
   by
    have h := (claim_C7.1 0 [4] 2 0 true false).1
    cases hv : isOkB (mkMLP 0 [4] 2 0 true false) with
    | true => exact absurd ((h.mp hv).1) (by decide)
    | false => rfl,
   ((claim_C7.2 3 [4] 2 2 2 0 true false).1).mpr (by decide),
   by
    have h := (claim_C7.2 3 [0] 2 2 2 0 true false).1
    cases hv : isOkB (mkGATConv 3 [0] 2 2 2 0 true false) with
    | true =>
      obtain ⟨-, -, -, -, -, hall⟩ := h.mp hv
      exact absurd (hall 0 (by decide)) (by decide)
    | false => rfl⟩

/-- Claim C6 (as stated) is false: `NNImpl::NNImpl` performs no validation
of `k`.  Constructing the model with `k = 0 < 1` succeeds without raising
any error. -/
theorem claim_C6_counterexample :
    isOkB (mkNN 1 [1] [1] [1] 1 1 0 true 0 true) = true := by decide

/-- Claim C6 amended: `NNImpl::NNImpl` never validates `k`; the outcome of
construction is independent of `k` (including every `k < 1`) except that
the given `k` is stored, so no `ConfigError` is ever raised for `k < 1`. -/
theorem claim_C6_amended (node oa ew : ℤ)
    (h1 h2 hm : List ℤ) (p : ℚ) (ln u : Bool) (k k2 : ℤ) :
    mkNN node h1 h2 hm oa ew p ln k u =
      (mkNN node h1 h2 hm oa ew p ln k2 u).map
        (fun t => (t.1, t.2.1, t.2.2.1, k)) := by
  unfold mkNN
  cases mkGATConv node h1 oa node ew p ln u with
  | error err => rfl
  | ok g1 =>
    cases mkGATConv oa h2 oa node ew p ln u with
    | error err => rfl
    | ok g2 =>
      cases mkMLP (2 * oa) hm 1 p ln u with
      | error err => rfl
      | ok m => rfl

theorem claim_C6_amended_witness :
    mkNN 1 [1] [1] [1] 1 1 0 true (-3) true =
      (mkNN 1 [1] [1] [1] 1 1 0 true 7 true).map
        (fun t => (t.1, t.2.1, t.2.2.1, -3)) :=
  claim_C6_amended 1 1 1 [1] [1] [1] 0 true true (-3) 7

/-- Lemma: `hiddenGroup` with a non-positive dropout probability equals the
`dropout_prob = 0` group. -/
theorem hiddenGroup_nonpos (a b : ℤ) (p : ℚ) (ln : Bool) (hp : p ≤ 0) :
    hiddenGroup a b p ln = hiddenGroup a b 0 ln := by
  unfold hiddenGroup
  rw [if_neg (show ¬ p > 0 from not_lt.mpr hp),
    if_neg (show ¬ (0 : ℚ) > 0 from lt_irrefl 0)]

theorem hiddenChain_nonpos (p : ℚ) (ln : Bool) (hp : p ≤ 0) :
    ∀ (hs : List ℤ) (prev : ℤ),
    hiddenChain prev p ln hs = hiddenChain prev 0 ln hs := by
  intro hs
  induction hs with
  | nil => intro prev; rfl
  | cons h t ih =>
    intro prev
    show hiddenGroup prev h p ln ++ hiddenChain h p ln t
        = hiddenGroup prev h 0 ln ++ hiddenChain h 0 ln t
    rw [hiddenGroup_nonpos _ _ _ _ hp, ih h]

theorem hiddenGroup_no_dropout (a b : ℤ) (p : ℚ) (ln : Bool) (hp : p ≤ 0)
    (q : ℚ) : Layer.dropout q ∉ hiddenGroup a b p ln := by
  unfold hiddenGroup
  rw [if_neg (show ¬ p > 0 from not_lt.mpr hp)]
  cases ln <;> simp

theorem hiddenChain_no_dropout (p : ℚ) (ln : Bool) (hp : p ≤ 0) (q : ℚ) :
    ∀ (hs : List ℤ) (prev : ℤ), Layer.dropout q ∉ hiddenChain prev p ln hs := by
  intro hs
  induction hs with
  | nil => intro prev h; exact absurd h (List.not_mem_nil _)
  | cons h t ih =>
    intro prev hmem
    rcases List.mem_append.mp hmem with hmem | hmem
    · exact hiddenGroup_no_dropout _ _ _ _ hp q hmem
    · exact ih h hmem

/-- Claim C10: `MLPImpl::MLPImpl` never validates `dropout_prob` — whether
construction succeeds does not depend on its value at all — and every
`dropout_prob ≤ 0` builds exactly the `dropout_prob = 0` layer stack,
which contains no dropout layer. -/
theorem claim_C10 (i : ℤ) (hs : List ℤ) (o : ℤ) (ln u : Bool) (p p2 : ℚ) :
    isOkB (mkMLP i hs o p ln u) = isOkB (mkMLP i hs o p2 ln u) ∧
    (p ≤ 0 →
      mkMLP i hs o p ln u = mkMLP i hs o 0 ln u ∧
      ∀ L, mkMLP i hs o p ln u = .ok L → ∀ q, Layer.dropout q ∉ L) := by
  constructor
  · unfold mkMLP
    split_ifs <;> rfl
  · intro hp
    have heq : mkMLP i hs o p ln u = mkMLP i hs o 0 ln u := by
      unfold mkMLP
      split_ifs with h1 h2 h3 h4
      · rfl
      · rfl
      · rfl
      · rfl
      · unfold mlpLayers
        rw [hiddenChain_nonpos p ln hp hs i]
    refine ⟨heq, ?_⟩
    intro L hL q hmem
    unfold mkMLP at hL
    split_ifs at hL
    cases hL
    unfold mlpLayers at hmem
    rcases List.mem_append.mp hmem with hmem | hmem
    · rcases List.mem_append.mp hmem with hmem | hmem
      · exact hiddenChain_no_dropout p ln hp q hs i hmem
      · simp at hmem
    · cases u <;> simp at hmem

theorem claim_C10_witness :
    isOkB (mkMLP 2 [3] 2 (-5) true false) = isOkB (mkMLP 2 [3] 2 9 true false) ∧
      ((-5 : ℚ) ≤ 0 →
        mkMLP 2 [3] 2 (-5) true false = mkMLP 2 [3] 2 0 true false ∧
        ∀ L, mkMLP 2 [3] 2 (-5) true false = .ok L →
          ∀ q, Layer.dropout q ∉ L) :=
  claim_C10 2 [3] 2 true false (-5) 9

theorem indexSelect_ok (m : Mat) (idx : List ℕ)
    (h : ∀ i ∈ idx, i < m.rows.length) :
    indexSelect m idx = .ok ⟨m.cols, idx.map (fun i => m.rows.getD i [])⟩ := by
  unfold indexSelect
  rw [gatherRows_ok m.rows idx h]
  rfl

/-- Claim C8: the dense block built inside `GATConvImpl` has input width
exactly `5 * input_node_width + initial_node_width + 4 * edge_width`
(construction delegates to `MLPImpl` at exactly that width); this equals
the width of the six-block concatenation formed in `forward`, so on a
well-formed graph whose feature widths match the configuration, `forward`
raises no error and its output has shape `[N, output_node_width]` with
`N = node_attr.rows`. -/
theorem claim_C8 (inW iniW eW outW : ℕ) (hs : List ℤ)
    (hin : 1 ≤ inW) (hini : 1 ≤ iniW) (hew : 1 ≤ eW) (hout : 1 ≤ outW)
    (hne : hs ≠ []) (hall : ∀ x ∈ hs, 1 ≤ x) (p : ℚ) (ln u : Bool)
    (c : GATConv) (hc : MLPContract c.mlp (5 * inW + iniW + 4 * eW) outW)
    (e : EdgeIndex) (na ea ina : Mat) (wt : List ℚ)
    (hna : na.cols = inW) (hwfna : na.WF)
    (hea : ea.cols = eW) (hwfea : ea.WF)
    (hina : ina.cols = iniW) (hwfina : ina.WF)
    (hinalen : ina.rows.length = na.rows.length)
    (hst : e.tgt.length = e.src.length)
    (hlen_ea : ea.rows.length = e.src.length)
    (hlen_wt : wt.length = e.src.length)
    (hsrc : ∀ i ∈ e.src, i < na.rows.length)
    (htgt : ∀ t ∈ e.tgt, t < na.rows.length) :
    mkGATConv (inW : ℤ) hs (outW : ℤ) (iniW : ℤ) (eW : ℤ) p ln u
        = mkMLP ((5 * inW + iniW + 4 * eW : ℕ) : ℤ) hs (outW : ℤ) p ln u
      ∧ ∃ y, c.forward e na ea wt ina = .ok y ∧
          y.rows.length = na.rows.length ∧ y.cols = outW ∧ y.WF := by
  constructor
  · have hcast : ((5 * inW + iniW + 4 * eW : ℕ) : ℤ)
        = 5 * (inW : ℤ) + (iniW : ℤ) + 4 * (eW : ℤ) := by push_cast; ring
    rw [hcast]
    exact mkGATConv_eq_mkMLP _ hs _ _ _ p ln u (by exact_mod_cast hin)
      (by exact_mod_cast hout) (by exact_mod_cast hini) (by exact_mod_cast hew)
      hne hall
  · obtain ⟨y, hy, hyc, hyl, hyw⟩ := GATConv.forward_ok c inW eW iniW outW hc
      e na ea ina wt hna hwfna hea hwfea hina hwfina hinalen hst hlen_ea
      hlen_wt hsrc htgt
    exact ⟨y, hy, hyl, hyc, hyw⟩

theorem claim_C8_witness :
    mkGATConv ((1 : ℕ) : ℤ) [1] ((1 : ℕ) : ℤ) ((1 : ℕ) : ℤ) ((1 : ℕ) : ℤ) 0 true false
        = mkMLP ((5 * 1 + 1 + 4 * 1 : ℕ) : ℤ) [1] ((1 : ℕ) : ℤ) 0 true false
      ∧ ∃ y, GATConv.forward ⟨constMLP 1⟩ ⟨[0], [1]⟩ ⟨1, [[1], [2]]⟩ ⟨1, [[3]]⟩
            [6] ⟨1, [[4], [5]]⟩ = .ok y ∧
          y.rows.length = (⟨1, [[1], [2]]⟩ : Mat).rows.length ∧ y.cols = 1 ∧ y.WF :=
  claim_C8 1 1 1 1 [1] (by decide) (by decide) (by decide) (by decide)
    (by decide) (by decide) 0 true false ⟨constMLP 1⟩ (constMLP_contract _ _)
    ⟨[0], [1]⟩ ⟨1, [[1], [2]]⟩ ⟨1, [[3]]⟩ ⟨1, [[4], [5]]⟩ [6]
    (by decide) (by decide) (by decide) (by decide) (by decide) (by decide)
    (by decide) (by decide) (by decide) (by decide) (by decide) (by decide)

/-- Claim C5: for every `k ≥ 1`, `NNImpl::forward` applies `gatconv1` once
with `initial_node_attr = node_attr`, then the single weight-shared
`gatconv2` exactly `k - 1` times, each time on the running embedding but
always with the original `node_attr` as the initial features (with `k = 1`
the loop body never runs and `gatconv2` is never invoked); it then gathers
the per-edge source and target endpoint embeddings, concatenates them in
the order `(source, target)` and feeds the reducer, returning one scalar
per edge: shape `[E, 1]`. -/
theorem claim_C5 (n : NN) (naW eaW outW : ℕ) (hk : 1 ≤ n.k)
    (hc1 : MLPContract n.gatconv1.mlp (5 * naW + naW + 4 * eaW) outW)
    (hc2 : MLPContract n.gatconv2.mlp (5 * outW + naW + 4 * eaW) outW)
    (hcr : MLPContract n.mlp (outW + outW) 1)
    (e : EdgeIndex) (na ea : Mat) (wt : List ℚ)
    (hna : na.cols = naW) (hwfna : na.WF)
    (hea : ea.cols = eaW) (hwfea : ea.WF)
    (hst : e.tgt.length = e.src.length)
    (hlen_ea : ea.rows.length = e.src.length)
    (hlen_wt : wt.length = e.src.length)
    (hsrc : ∀ i ∈ e.src, i < na.rows.length)
    (htgt : ∀ t ∈ e.tgt, t < na.rows.length) :
    (NN.forward n e na ea wt =
      (n.gatconv1.forward e na ea wt na).bind (fun first =>
        (applyN (fun emb => n.gatconv2.forward e emb ea wt na)
            (n.k - 1).toNat first).bind (fun out =>
          (indexSelect out e.src).bind (fun a =>
            (indexSelect out e.tgt).bind (fun b =>
              (hcat a b).bind n.mlp)))))
    ∧ (n.k = 1 →
        NN.forward n e na ea wt =
          (n.gatconv1.forward e na ea wt na).bind (fun out =>
            (indexSelect out e.src).bind (fun a =>
              (indexSelect out e.tgt).bind (fun b =>
                (hcat a b).bind n.mlp))))
    ∧ ∃ y, NN.forward n e na ea wt = .ok y ∧
        y.rows.length = e.src.length ∧ y.cols = 1 ∧ y.WF := by
  refine ⟨rfl, ?_, ?_⟩
  · intro h1
    have h0 : (n.k - 1).toNat = 0 := by rw [h1]; rfl
    unfold NN.forward
    rw [h0]
    cases n.gatconv1.forward e na ea wt na with
    | error err => rfl
    | ok first => rfl
  · obtain ⟨emb0, h0f, h0c, h0l, h0w⟩ := GATConv.forward_ok n.gatconv1
      naW eaW naW outW hc1 e na ea na wt hna hwfna hea hwfea hna hwfna rfl
      hst hlen_ea hlen_wt hsrc htgt
    have hstep : ∀ x : Mat, x.WF → x.cols = outW →
        x.rows.length = na.rows.length →
        ∃ y, n.gatconv2.forward e x ea wt na = .ok y ∧ y.cols = outW ∧
          y.rows.length = na.rows.length ∧ y.WF := by
      intro x hxw hxc hxl
      obtain ⟨y, hy, hyc, hyl, hyw⟩ := GATConv.forward_ok n.gatconv2
        outW eaW naW outW hc2 e x ea na wt hxc hxw hea hwfea hna hwfna
        (by rw [hxl]) hst hlen_ea hlen_wt (by rw [hxl]; exact hsrc)
        (by rw [hxl]; exact htgt)
      exact ⟨y, hy, hyc, by rw [hyl, hxl], hyw⟩
    obtain ⟨out, hout, houtc, houtl, houtw⟩ :=
      applyN_ok (fun emb => n.gatconv2.forward e emb ea wt na)
        na.rows.length outW hstep (n.k - 1).toNat emb0 h0w h0c h0l
    have hsel1 : indexSelect out e.src
        = .ok ⟨out.cols, e.src.map (fun i => out.rows.getD i [])⟩ :=
      indexSelect_ok out e.src (by rw [houtl]; exact hsrc)
    have hsel2 : indexSelect out e.tgt
        = .ok ⟨out.cols, e.tgt.map (fun i => out.rows.getD i [])⟩ :=
      indexSelect_ok out e.tgt (by rw [houtl]; exact htgt)
    have hcatok := hcat_ok ⟨out.cols, e.src.map (fun i => out.rows.getD i [])⟩
      ⟨out.cols, e.tgt.map (fun i => out.rows.getD i [])⟩
      (by simp [hst])
    have hga := gathered_length out houtw e.src (by rw [houtl]; exact hsrc)
    have hgb := gathered_length out houtw e.tgt (by rw [houtl]; exact htgt)
    have hCw : (⟨out.cols + out.cols,
        List.zipWith (fun r s => r ++ s)
          (e.src.map (fun i => out.rows.getD i []))
          (e.tgt.map (fun i => out.rows.getD i []))⟩ : Mat).WF := by
      refine mem_zipWith_length2 (fun r s => r ++ s) _ _ _ ?_
      intro a ha b hb
      rw [List.length_append, hga a ha, hgb b hb]
    obtain ⟨y, hy, hyc, hyl, hyw⟩ := hcr
      ⟨out.cols + out.cols,
        List.zipWith (fun r s => r ++ s)
          (e.src.map (fun i => out.rows.getD i []))
          (e.tgt.map (fun i => out.rows.getD i []))⟩
      hCw (by simp [houtc])
    refine ⟨y, ?_, ?_, hyc, hyw⟩
    · unfold NN.forward
      rw [h0f, bind_ok_eq, hout, bind_ok_eq, hsel1, bind_ok_eq, hsel2,
        bind_ok_eq, hcatok, bind_ok_eq]
      exact hy
    · rw [hyl]
      simp [List.length_zipWith, hst]

theorem claim_C5_witness :
    (NN.forward ⟨⟨constMLP 1⟩, ⟨constMLP 1⟩, constMLP 1, 2⟩ ⟨[0], [1]⟩
        ⟨1, [[1], [2]]⟩ ⟨1, [[3]]⟩ [4] =
      ((⟨constMLP 1⟩ : GATConv).forward ⟨[0], [1]⟩ ⟨1, [[1], [2]]⟩ ⟨1, [[3]]⟩
          [4] ⟨1, [[1], [2]]⟩).bind (fun first =>
        (applyN (fun emb => (⟨constMLP 1⟩ : GATConv).forward ⟨[0], [1]⟩ emb
            ⟨1, [[3]]⟩ [4] ⟨1, [[1], [2]]⟩) ((2 : ℤ) - 1).toNat first).bind
          (fun out =>
            (indexSelect out [0]).bind (fun a =>
              (indexSelect out [1]).bind (fun b =>
                (hcat a b).bind (constMLP 1))))))
    ∧ ((2 : ℤ) = 1 →
        NN.forward ⟨⟨constMLP 1⟩, ⟨constMLP 1⟩, constMLP 1, 2⟩ ⟨[0], [1]⟩
            ⟨1, [[1], [2]]⟩ ⟨1, [[3]]⟩ [4] =
          ((⟨constMLP 1⟩ : GATConv).forward ⟨[0], [1]⟩ ⟨1, [[1], [2]]⟩
              ⟨1, [[3]]⟩ [4] ⟨1, [[1], [2]]⟩).bind (fun out =>
            (indexSelect out [0]).bind (fun a =>
              (indexSelect out [1]).bind (fun b =>
                (hcat a b).bind (constMLP 1)))))
    ∧ ∃ y, NN.forward ⟨⟨constMLP 1⟩, ⟨constMLP 1⟩, constMLP 1, 2⟩ ⟨[0], [1]⟩
          ⟨1, [[1], [2]]⟩ ⟨1, [[3]]⟩ [4] = .ok y ∧
        y.rows.length = ([0] : List ℕ).length ∧ y.cols = 1 ∧ y.WF :=
  claim_C5 ⟨⟨constMLP 1⟩, ⟨constMLP 1⟩, constMLP 1, 2⟩ 1 1 1 (by decide)
    (constMLP_contract _ _) (constMLP_contract _ _) (constMLP_contract _ _)
    ⟨[0], [1]⟩ ⟨1, [[1], [2]]⟩ ⟨1, [[3]]⟩ [4]
    (by decide) (by decide) (by decide) (by decide) (by decide) (by decide)
    (by decide) (by decide) (by decide)

/-! ### Permutation invariance of the scatter-sum -/

theorem Mat.eq_of_parts (a b : Mat) (h1 : a.cols = b.cols)
    (h2 : a.rows = b.rows) : a = b := by
  cases a; cases b; simp_all

theorem foldl_rowAdd_perm {l1 l2 : List (List ℚ)} (h : List.Perm l1 l2) :
    ∀ b, l1.foldl rowAdd b = l2.foldl rowAdd b := by
  induction h with
  | nil => intro b; rfl
  | cons x h ih => intro b; simp only [List.foldl_cons]; exact ih _
  | swap x y l => intro b; simp only [List.foldl_cons, rowAdd_right_comm]
  | trans h1 h2 ih1 ih2 => intro b; rw [ih1, ih2]

/-- Aggregation depends on the edge list only through the multiset of
(target, message-row) pairs: permuting the edges in lockstep leaves the
scatter-sum unchanged. -/
theorem aggregate_perm (e1 e2 : EdgeIndex) (m1 m2 : Mat) (N : ℕ)
    (hlen1 : e1.tgt.length = m1.rows.length)
    (hlen2 : e2.tgt.length = m2.rows.length)
    (htgt1 : ∀ t ∈ e1.tgt, t < N) (htgt2 : ∀ t ∈ e2.tgt, t < N)
    (hcols : m1.cols = m2.cols)
    (hperm : List.Perm (e1.tgt.zip m1.rows) (e2.tgt.zip m2.rows)) :
    aggregate e1 m1 N = aggregate e2 m2 N := by
  obtain ⟨M1, hM1, hc1, hl1, hrow1⟩ := aggregate_ok e1 m1 N hlen1 htgt1
  obtain ⟨M2, hM2, hc2, hl2, hrow2⟩ := aggregate_ok e2 m2 N hlen2 htgt2
  rw [hM1, hM2]
  congr 1
  refine Mat.eq_of_parts M1 M2 (by rw [hc1, hc2, hcols]) ?_
  refine List.ext_getElem (by rw [hl1, hl2]) ?_
  intro n hn1 hn2
  rw [← List.getD_eq_getElem _ [] hn1, ← List.getD_eq_getElem _ [] hn2,
    hrow1 n (hl1 ▸ hn1), hrow2 n (hl2 ▸ hn2),
    rowAcc_eq_foldl_filter, rowAcc_eq_foldl_filter, hcols]
  exact foldl_rowAdd_perm (List.Perm.map _ (List.Perm.filter _ hperm)) _

theorem zip_tgt_hop1_eq_quadMap (g : ℕ → List ℚ) :
    ∀ (ss ts : List ℕ) (as : List (List ℚ)) (ws : List ℚ),
    ts.length = ss.length → as.length = ss.length → ws.length = ss.length →
    ts.zip (List.zipWith (fun c r => r.map (fun x => c * x)) ws
      (List.zipWith (fun r s => r ++ s) (ss.map g) as))
    = (ss.zip (ts.zip (as.zip ws))).map
        (fun q => (q.2.1, (g q.1 ++ q.2.2.1).map (fun x => q.2.2.2 * x))) := by
  intro ss
  induction ss with
  | nil =>
    intro ts as ws h1 h2 h3
    rcases List.length_eq_zero.mp h1 with rfl
    rfl
  | cons s ss ih =>
    intro ts as ws h1 h2 h3
    cases ts with
    | nil => simp at h1
    | cons t ts =>
      cases as with
      | nil => simp at h2
      | cons a as =>
        cases ws with
        | nil => simp at h3
        | cons w ws =>
          simp only [List.map_cons, List.zipWith_cons_cons, List.zip_cons_cons]
          exact congrArg₂ List.cons rfl
            (ih ts as ws (by simpa using h1) (by simpa using h2)
              (by simpa using h3))

theorem zip_tgt_hop2_eq_quadMap (g : ℕ → List ℚ) :
    ∀ (ss ts : List ℕ) (as : List (List ℚ)) (ws : List ℚ),
    ts.length = ss.length → as.length = ss.length → ws.length = ss.length →
    ts.zip (List.zipWith (fun c r => r.map (fun x => c * x)) ws (ss.map g))
    = (ss.zip (ts.zip (as.zip ws))).map
        (fun q => (q.2.1, (g q.1).map (fun x => q.2.2.2 * x))) := by
  intro ss
  induction ss with
  | nil =>
    intro ts as ws h1 h2 h3
    rcases List.length_eq_zero.mp h1 with rfl
    rfl
  | cons s ss ih =>
    intro ts as ws h1 h2 h3
    cases ts with
    | nil => simp at h1
    | cons t ts =>
      cases as with
      | nil => simp at h2
      | cons a as =>
        cases ws with
        | nil => simp at h3
        | cons w ws =>
          simp only [List.map_cons, List.zipWith_cons_cons, List.zip_cons_cons]
          exact congrArg₂ List.cons rfl
            (ih ts as ws (by simpa using h1) (by simpa using h2)
              (by simpa using h3))

theorem zip_swap_eq_quadMap {α : Type} :
    ∀ (ss ts : List ℕ) (xs : List α), ts.length = ss.length →
    ts.zip (ss.zip xs)
      = (ss.zip (ts.zip xs)).map (fun q => (q.2.1, q.1, q.2.2)) := by
  intro ss
  induction ss with
  | nil =>
    intro ts xs h1
    rcases List.length_eq_zero.mp h1 with rfl
    rfl
  | cons s ss ih =>
    intro ts xs h1
    cases ts with
    | nil => simp at h1
    | cons t ts =>
      cases xs with
      | nil => rfl
      | cons x xs =>
        simp only [List.zip_cons_cons, List.map_cons]
        exact congrArg₂ List.cons rfl (ih ts xs (by simpa using h1))

/-- Lemma: `quadList` of the flipped edge list is the swap-map of `quadList`. -/
theorem quadList_flip0 (e : EdgeIndex) (ea : Mat) (wt : List ℚ)
    (h1 : e.tgt.length = e.src.length) :
    quadList e.flip0 ea wt
      = (quadList e ea wt).map (fun q => (q.2.1, q.1, q.2.2)) :=
  zip_swap_eq_quadMap e.src e.tgt (ea.rows.zip wt) h1

/-- Lemma: `propagate` depends on the edge list only through the multiset of
per-edge (source, target, edge-feature, edge-weight) quadruples. -/
theorem propagate_perm (e1 e2 : EdgeIndex) (na ea1 ea2 : Mat)
    (wt1 wt2 : List ℚ) (hop : ℤ)
    (hsrc1 : ∀ i ∈ e1.src, i < na.rows.length)
    (htgt1 : ∀ t ∈ e1.tgt, t < na.rows.length)
    (hst1 : e1.tgt.length = e1.src.length)
    (hlen_ea1 : ea1.rows.length = e1.src.length)
    (hlen_wt1 : wt1.length = e1.src.length)
    (hsrc2 : ∀ i ∈ e2.src, i < na.rows.length)
    (htgt2 : ∀ t ∈ e2.tgt, t < na.rows.length)
    (hst2 : e2.tgt.length = e2.src.length)
    (hlen_ea2 : ea2.rows.length = e2.src.length)
    (hlen_wt2 : wt2.length = e2.src.length)
    (hcols : ea1.cols = ea2.cols)
    (hperm : List.Perm (quadList e1 ea1 wt1) (quadList e2 ea2 wt2)) :
    propagate e1 na ea1 wt1 hop = propagate e2 na ea2 wt2 hop := by
  have hm1 := message_ok e1 na ea1 wt1 hop hsrc1 hlen_ea1 hlen_wt1
  have hm2 := message_ok e2 na ea2 wt2 hop hsrc2 hlen_ea2 hlen_wt2
  unfold propagate
  by_cases hhop : hop = 1
  · rw [if_pos hhop] at hm1 hm2
    rw [hm1, bind_ok_eq, hm2, bind_ok_eq]
    refine aggregate_perm e1 e2 _ _ na.rows.length
      (by simp [List.length_zipWith, hlen_wt1, hlen_ea1, hst1])
      (by simp [List.length_zipWith, hlen_wt2, hlen_ea2, hst2])
      htgt1 htgt2 (by show na.cols + ea1.cols = na.cols + ea2.cols; rw [hcols]) ?_
    show List.Perm
      (e1.tgt.zip (List.zipWith (fun c r => r.map (fun x => c * x)) wt1
        (List.zipWith (fun r s => r ++ s)
          (e1.src.map (fun i => na.rows.getD i [])) ea1.rows)))
      (e2.tgt.zip (List.zipWith (fun c r => r.map (fun x => c * x)) wt2
        (List.zipWith (fun r s => r ++ s)
          (e2.src.map (fun i => na.rows.getD i [])) ea2.rows)))
    rw [zip_tgt_hop1_eq_quadMap (fun i => na.rows.getD i [])
        e1.src e1.tgt ea1.rows wt1 hst1 hlen_ea1 hlen_wt1,
      zip_tgt_hop1_eq_quadMap (fun i => na.rows.getD i [])
        e2.src e2.tgt ea2.rows wt2 hst2 hlen_ea2 hlen_wt2]
    exact List.Perm.map _ hperm
  · rw [if_neg hhop] at hm1 hm2
    rw [hm1, bind_ok_eq, hm2, bind_ok_eq]
    refine aggregate_perm e1 e2 _ _ na.rows.length
      (by simp [List.length_zipWith, hlen_wt1, hst1])
      (by simp [List.length_zipWith, hlen_wt2, hst2])
      htgt1 htgt2 (by show na.cols = na.cols; rfl) ?_
    show List.Perm
      (e1.tgt.zip (List.zipWith (fun c r => r.map (fun x => c * x)) wt1
        (e1.src.map (fun i => na.rows.getD i []))))
      (e2.tgt.zip (List.zipWith (fun c r => r.map (fun x => c * x)) wt2
        (e2.src.map (fun i => na.rows.getD i []))))
    rw [zip_tgt_hop2_eq_quadMap (fun i => na.rows.getD i [])
        e1.src e1.tgt ea1.rows wt1 hst1 hlen_ea1 hlen_wt1,
      zip_tgt_hop2_eq_quadMap (fun i => na.rows.getD i [])
        e2.src e2.tgt ea2.rows wt2 hst2 hlen_ea2 hlen_wt2]
    exact List.Perm.map _ hperm

theorem addRowsAt_length : ∀ (idx : List ℕ) (vs base out : List (List ℚ)),
    addRowsAt base idx vs = .ok out → out.length = base.length := by
  intro idx
  induction idx with
  | nil =>
    intro vs base out h
    cases vs with
    | nil => cases h; rfl
    | cons v vs => simp [addRowsAt] at h
  | cons i is ih =>
    intro vs base out h
    cases vs with
    | nil => simp [addRowsAt] at h
    | cons v vs =>
      unfold addRowsAt at h
      by_cases hi : i < base.length
      · rw [if_pos hi] at h
        have hlen := ih vs _ out h
        rwa [List.length_set] at hlen
      · rw [if_neg hi] at h
        cases h

theorem aggregate_length (e : EdgeIndex) (msgs : Mat) (N : ℕ) (M : Mat)
    (h : aggregate e msgs N = .ok M) : M.rows.length = N := by
  unfold aggregate indexAdd at h
  rw [zerosMat_cols, if_pos rfl] at h
  cases hout : addRowsAt (zerosMat N msgs.cols).rows e.tgt msgs.rows with
  | error err => rw [hout, bind_err_eq] at h; cases h
  | ok out =>
    rw [hout, bind_ok_eq] at h
    cases h
    rw [show (⟨msgs.cols, out⟩ : Mat).rows = out from rfl,
      addRowsAt_length e.tgt msgs.rows _ out hout, zerosMat_rows_length]

theorem propagate_length (e : EdgeIndex) (na ea : Mat) (wt : List ℚ)
    (hop : ℤ) (M : Mat) (h : propagate e na ea wt hop = .ok M) :
    M.rows.length = na.rows.length := by
  unfold propagate at h
  cases hm : message e na ea wt hop with
  | error err => rw [hm, bind_err_eq] at h; cases h
  | ok msgs => rw [hm, bind_ok_eq] at h; exact aggregate_length e msgs _ M h

/-- Claim C4: permuting the edge list in lockstep — the same permutation
applied to the columns of `edge_index`, to the rows of `edge_attr` and to
`edge_weight`, captured as a permutation of the per-edge quadruple list —
changes neither the result of aggregation nor the result of
`GATConvImpl::forward` (exact rational arithmetic). -/
theorem claim_C4 :
    (∀ (e1 e2 : EdgeIndex) (m1 m2 : Mat) (N : ℕ),
      e1.tgt.length = m1.rows.length → e2.tgt.length = m2.rows.length →
      (∀ t ∈ e1.tgt, t < N) → (∀ t ∈ e2.tgt, t < N) →
      m1.cols = m2.cols →
      List.Perm (e1.tgt.zip m1.rows) (e2.tgt.zip m2.rows) →
      aggregate e1 m1 N = aggregate e2 m2 N) ∧
    (∀ (c : GATConv) (e1 e2 : EdgeIndex) (na ea1 ea2 ina : Mat)
        (wt1 wt2 : List ℚ),
      (∀ i ∈ e1.src, i < na.rows.length) →
      (∀ t ∈ e1.tgt, t < na.rows.length) →
      e1.tgt.length = e1.src.length → ea1.rows.length = e1.src.length →
      wt1.length = e1.src.length →
      (∀ i ∈ e2.src, i < na.rows.length) →
      (∀ t ∈ e2.tgt, t < na.rows.length) →
      e2.tgt.length = e2.src.length → ea2.rows.length = e2.src.length →
      wt2.length = e2.src.length →
      ea1.cols = ea2.cols →
      List.Perm (quadList e1 ea1 wt1) (quadList e2 ea2 wt2) →
      c.forward e1 na ea1 wt1 ina = c.forward e2 na ea2 wt2 ina) := by
  constructor
  · intro e1 e2 m1 m2 N hlen1 hlen2 ht1 ht2 hcols hperm
    exact aggregate_perm e1 e2 m1 m2 N hlen1 hlen2 ht1 ht2 hcols hperm
  · intro c e1 e2 na ea1 ea2 ina wt1 wt2 hsrc1 htgt1 hst1 hlea1 hlwt1
      hsrc2 htgt2 hst2 hlea2 hlwt2 hcols hperm
    have h1 := propagate_perm e1 e2 na ea1 ea2 wt1 wt2 1 hsrc1 htgt1 hst1
      hlea1 hlwt1 hsrc2 htgt2 hst2 hlea2 hlwt2 hcols hperm
    have hqperm : List.Perm (quadList e1.flip0 ea1 wt1)
        (quadList e2.flip0 ea2 wt2) := by
      rw [quadList_flip0 e1 ea1 wt1 hst1, quadList_flip0 e2 ea2 wt2 hst2]
      exact List.Perm.map _ hperm
    have h2 := propagate_perm e1.flip0 e2.flip0 na ea1 ea2 wt1 wt2 1
      htgt1 hsrc1 hst1.symm (hlea1.trans hst1.symm) (hlwt1.trans hst1.symm)
      htgt2 hsrc2 hst2.symm (hlea2.trans hst2.symm) (hlwt2.trans hst2.symm)
      hcols hqperm
    unfold GATConv.forward
    rw [h1]
    cases hp : propagate e2 na ea2 wt2 1 with
    | error err => rfl
    | ok M1 =>
      rw [bind_ok_eq, bind_ok_eq, h2]
      cases hp2 : propagate e2.flip0 na ea2 wt2 1 with
      | error err => rfl
      | ok M2 =>
        rw [bind_ok_eq, bind_ok_eq]
        have hM1len : M1.rows.length = na.rows.length :=
          propagate_length e2 na ea2 wt2 1 M1 hp
        have h3 := propagate_perm e1 e2 M1 ea1 ea2 wt1 wt2 2
          (by rw [hM1len]; exact hsrc1) (by rw [hM1len]; exact htgt1)
          hst1 hlea1 hlwt1
          (by rw [hM1len]; exact hsrc2) (by rw [hM1len]; exact htgt2)
          hst2 hlea2 hlwt2 hcols hperm
        rw [h3]
        cases hp3 : propagate e2 M1 ea2 wt2 2 with
        | error err => rfl
        | ok M3 =>
          rw [bind_ok_eq, bind_ok_eq]
          have hM2len : M2.rows.length = na.rows.length :=
            propagate_length e2.flip0 na ea2 wt2 1 M2 hp2
          have h4 := propagate_perm e1.flip0 e2.flip0 M2 ea1 ea2 wt1 wt2 2
            (by rw [hM2len]; exact htgt1) (by rw [hM2len]; exact hsrc1)
            hst1.symm (hlea1.trans hst1.symm) (hlwt1.trans hst1.symm)
            (by rw [hM2len]; exact htgt2) (by rw [hM2len]; exact hsrc2)
            hst2.symm (hlea2.trans hst2.symm) (hlwt2.trans hst2.symm)
            hcols hqperm
          rw [h4]

theorem claim_C4_witness :
    aggregate ⟨[0, 1], [1, 0]⟩ ⟨1, [[1], [2]]⟩ 2
        = aggregate ⟨[1, 0], [0, 1]⟩ ⟨1, [[2], [1]]⟩ 2
    ∧ GATConv.forward ⟨constMLP 1⟩ ⟨[0, 1], [1, 0]⟩ ⟨1, [[5], [6]]⟩
          ⟨1, [[1], [2]]⟩ [3, 4] ⟨1, [[7], [8]]⟩
        = GATConv.forward ⟨constMLP 1⟩ ⟨[1, 0], [0, 1]⟩ ⟨1, [[5], [6]]⟩
          ⟨1, [[2], [1]]⟩ [4, 3] ⟨1, [[7], [8]]⟩ :=
  ⟨claim_C4.1 ⟨[0, 1], [1, 0]⟩ ⟨[1, 0], [0, 1]⟩ ⟨1, [[1], [2]]⟩
      ⟨1, [[2], [1]]⟩ 2 (by decide) (by decide) (by decide) (by decide)
      (by decide) (by decide),
   claim_C4.2 ⟨constMLP 1⟩ ⟨[0, 1], [1, 0]⟩ ⟨[1, 0], [0, 1]⟩
      ⟨1, [[5], [6]]⟩ ⟨1, [[1], [2]]⟩ ⟨1, [[2], [1]]⟩ ⟨1, [[7], [8]]⟩
      [3, 4] [4, 3] (by decide) (by decide) (by decide) (by decide)
      (by decide) (by decide) (by decide) (by decide) (by decide)
      (by decide) (by decide) (by decide)⟩

end GNN
